import Mathlib

/-!
Verification of the Tucker-tensor core of the `tensorly` repository
(`tensorly/tucker_tensor.py`) against its natural-language specification.

Tensors are shallowly embedded as a shape (list of extents, one per mode)
together with an entry function from multi-indices (row-major, as in numpy)
to integers; exact integer arithmetic stands in for the numeric backend.
Matrices (the factor matrices of a Tucker decomposition) get their own
2-D structure.  The functions of `tucker_tensor.py` are translated
definition by definition; the external collaborators that the file imports
from elsewhere in the repository (`multi_mode_dot`, `unfold`,
`tensor_to_vec`, `kronecker`) are not under `src/` and are modelled from
the specification, as marked in their doc comments.
-/

namespace Tucker

/-- An n-dimensional integer array: a shape (one extent per mode) and an
entry function on multi-indices.  Only values at valid indices (componentwise
below the shape) are meaningful. -/
structure Tensor where
  shape : List ℕ
  entry : List ℕ → ℤ

/-- A 2-D integer array, used for the factor matrices. -/
structure Mat where
  rows : ℕ
  cols : ℕ
  entry : ℕ → ℕ → ℤ

/-- Placeholder matrix used only to give `List.getD` a default. -/
def dummyMat : Mat := ⟨0, 0, fun _ _ => 0⟩

/-- All valid multi-indices of a shape, enumerated in row-major order
(first mode slowest), mirroring numpy's C ordering. -/
def allIndices : List ℕ → List (List ℕ)
  | [] => [[]]
  | n :: rest => (List.range n).flatMap (fun i => (allIndices rest).map (fun ix => i :: ix))

/-- A multi-index is valid for a shape when it has one coordinate per mode,
each below the corresponding extent. -/
def ValidIdx : List ℕ → List ℕ → Prop
  | [], [] => True
  | s :: srest, i :: irest => i < s ∧ ValidIdx srest irest
  | _, _ => False

instance instDecValidIdx : ∀ s ix, Decidable (ValidIdx s ix)
  | [], [] => isTrue trivial
  | [], _ :: _ => isFalse (fun h => h)
  | _ :: _, [] => isFalse (fun h => h)
  | s :: srest, i :: irest =>
    match @instDecidableAnd (i < s) (ValidIdx srest irest) (Nat.decLt i s)
        (instDecValidIdx srest irest) with
    | isTrue h => isTrue h
    | isFalse h => isFalse h

/-- Extensional equality of tensors: same shape and same entries at every
valid index. -/
def TEq (a b : Tensor) : Prop :=
  a.shape = b.shape ∧ ∀ ix ∈ allIndices a.shape, a.entry ix = b.entry ix

instance (a b : Tensor) : Decidable (TEq a b) := by
  unfold TEq; infer_instance

/-- Extensional equality of matrices. -/
def MatEq (A B : Mat) : Prop :=
  A.rows = B.rows ∧ A.cols = B.cols ∧
    ∀ r < A.rows, ∀ c < A.cols, A.entry r c = B.entry r c

instance (A B : Mat) : Decidable (MatEq A B) := by
  unfold MatEq; infer_instance

/-- Structural errors raised by `_validate_tucker_tensor`, one constructor
per `raise ValueError` in the source, carrying exactly the quantities the
corresponding message interpolates. -/
inductive TuckerError where
  /-- Fewer than two factors were given (message reports the factor count). -/
  | tooFewFactors (nfactors : ℕ)
  /-- Factor count differs from the number of core modes (message reports
  the core's mode count and the factor count). -/
  | wrongFactorCount (coreModes nfactors : ℕ)
  /-- Mode `mode`'s factor has `factorRank` columns but the core has extent
  `coreDim` there (message reports all three). -/
  | rankMismatch (mode factorRank coreDim : ℕ)
deriving DecidableEq

/-- The per-mode loop of `_validate_tucker_tensor`: walks the factors with a
running mode counter `i`, failing at the first factor whose column count
disagrees with the core's extent at that mode, otherwise accumulating the
rows as the shape and the columns as the rank. -/
def validateLoop (coreShape : List ℕ) : ℕ → List Mat → Except TuckerError (List ℕ × List ℕ)
  | _, [] => .ok ([], [])
  | i, U :: rest =>
    if U.cols ≠ coreShape.getD i 0 then
      .error (.rankMismatch i U.cols (coreShape.getD i 0))
    else
      match validateLoop coreShape (i + 1) rest with
      | .error e => .error e
      | .ok (sh, rk) => .ok (U.rows :: sh, U.cols :: rk)

/-- Embedding of `_validate_tucker_tensor` from `tucker_tensor.py`: checks
`len(factors) < 2`, then `len(factors) != core.ndim`, then per mode
`factors[i].shape[1] == core.shape[i]`, returning the tuple of factor row
counts (the shape) and factor column counts (the rank). -/
def validate_tucker_tensor (tt : Tensor × List Mat) : Except TuckerError (List ℕ × List ℕ) :=
  let (core, factors) := tt
  if factors.length < 2 then
    .error (.tooFewFactors factors.length)
  else if factors.length ≠ core.shape.length then
    .error (.wrongFactorCount core.shape.length factors.length)
  else
    validateLoop core.shape 0 factors

/-- Remove the element at position `k` (like numpy's axis removal / python
`list` deletion); identity past the end. -/
def eraseAt {α : Type} : ℕ → List α → List α
  | _, [] => []
  | 0, _ :: l => l
  | n + 1, x :: l => x :: eraseAt n l

/-- Insert `a` at position `k` (clamped to the end when `k` exceeds the
length). -/
def insertAt {α : Type} : ℕ → α → List α → List α
  | 0, a, l => a :: l
  | _ + 1, a, [] => [a]
  | n + 1, a, x :: l => x :: insertAt n a l

/-- Row-major digit expansion: the multi-index of shape `s` whose flat
(C-order) position is `c`. -/
def unflatten : List ℕ → ℕ → List ℕ
  | [], _ => []
  | _ :: rest, c => c / rest.prod :: unflatten rest (c % rest.prod)

/-- Product of the per-mode contraction weights of the multi-mode product:
mode counter `i`, output index `ix`, core index `jx`.  A skipped mode
contributes a Kronecker delta (the core's extent survives untouched); a
contracted mode contributes the factor entry, transposed when requested. -/
def prodWeights (skip : Option ℕ) (tr : Bool) : ℕ → List Mat → List ℕ → List ℕ → ℤ
  | _, [], _, _ => 1
  | _, _ :: _, [], _ => 1
  | _, _ :: _, _ :: _, [] => 1
  | i, U :: Us, a :: arest, b :: brest =>
    (if skip = some i then (if a = b then 1 else 0)
     else if tr then U.entry b a else U.entry a b) * prodWeights skip tr (i + 1) Us arest brest

/-- Output shape of the multi-mode product: the core's extent on a skipped
mode, the factor's row count (column count when transposed) elsewhere. -/
def mmdShape (skip : Option ℕ) (tr : Bool) : ℕ → List ℕ → List Mat → List ℕ
  | _, [], _ => []
  | _, _ :: _, [] => []
  | i, s :: srest, U :: Urest =>
    (if skip = some i then s else if tr then U.cols else U.rows) ::
      mmdShape skip tr (i + 1) srest Urest

/-- Modelled from the spec: `multi_mode_dot` from `tensorly.tenalg` is not
under `src/`.  Per §4.2 of the spec it contracts every mode of the core with
its factor (each output entry along mode `i` is a weighted sum over the
rank-`i` dimension with weights from `factors[i]`), skips the mode equal to
`skip`, applies factors transposed when `transpose` is set, and is
order-independent across modes, so it is embedded directly as the single
multilinear sum over all core indices. -/
def multi_mode_dot (core : Tensor) (factors : List Mat) (skip : Option ℕ) (tr : Bool) : Tensor :=
  { shape := mmdShape skip tr 0 core.shape factors
    entry := fun ix =>
      ((allIndices core.shape).map
        (fun jx => core.entry jx * prodWeights skip tr 0 factors ix jx)).sum }

/-- Embedding of `tucker_to_tensor` from `tucker_tensor.py`: delegates to
`multi_mode_dot` with the given skip and transposition flags. -/
def tucker_to_tensor (core : Tensor) (factors : List Mat) (skip_factor : Option ℕ)
    (transpose_factors : Bool) : Tensor :=
  multi_mode_dot core factors skip_factor transpose_factors

/-- Modelled from the spec: `unfold` from `tensorly.base` is not under
`src/`.  Per §4.4 rows enumerate the given mode's coordinate and columns
flatten the remaining coordinates in the tensor's native (row-major) mode
order. -/
def unfold (t : Tensor) (mode : ℕ) : Mat :=
  { rows := t.shape.getD mode 0
    cols := (eraseAt mode t.shape).prod
    entry := fun r c => t.entry (insertAt mode r (unflatten (eraseAt mode t.shape) c)) }

/-- A 1-D integer array. -/
structure Vec where
  len : ℕ
  entry : ℕ → ℤ

/-- Extensional equality of vectors. -/
def VecEq (a b : Vec) : Prop :=
  a.len = b.len ∧ ∀ i < a.len, a.entry i = b.entry i

instance (a b : Vec) : Decidable (VecEq a b) := by
  unfold VecEq; infer_instance

/-- Modelled from the spec: `tensor_to_vec` from `tensorly.base` is not
under `src/`.  Per §4.4 it flattens in the same native row-major ordering
as `unfold`'s column enumeration. -/
def tensor_to_vec (t : Tensor) : Vec :=
  { len := t.shape.prod
    entry := fun c => t.entry (unflatten t.shape c) }

/-- Entrywise product of a list of matrices at the given row and column
digit lists — the generic Kronecker-product entry. -/
def prodEntries : List Mat → List ℕ → List ℕ → ℤ
  | [], _, _ => 1
  | _ :: _, [], _ => 1
  | _ :: _, _ :: _, [] => 1
  | U :: Us, a :: arest, b :: brest => U.entry a b * prodEntries Us arest brest

/-- Modelled from the spec: `kronecker` from `tensorly.tenalg` is not under
`src/`.  The Kronecker product of an ordered list of matrices: the entry at
flat position `(r, c)` is the product of the factors' entries at the
row-major digit expansions of `r` and `c` (for two matrices this is the
usual block formula `A[r / p, c / q] * B[r % p, c % q]`); the skip-matrix
variant is application to the list with that matrix removed. -/
def kronecker (ms : List Mat) : Mat :=
  { rows := (ms.map Mat.rows).prod
    cols := (ms.map Mat.cols).prod
    entry := fun r c =>
      prodEntries ms (unflatten (ms.map Mat.rows) r) (unflatten (ms.map Mat.cols) c) }

/-- Matrix product over the integers. -/
def matMul (A B : Mat) : Mat :=
  { rows := A.rows
    cols := B.cols
    entry := fun r c => ((List.range A.cols).map (fun k => A.entry r k * B.entry k c)).sum }

/-- Matrix transposition. -/
def transposeMat (A : Mat) : Mat :=
  { rows := A.cols, cols := A.rows, entry := fun r c => A.entry c r }

/-- Embedding of `tucker_to_unfolded` from `tucker_tensor.py`: the mode
unfolding of the reconstructed full tensor. -/
def tucker_to_unfolded (core : Tensor) (factors : List Mat) (mode : ℕ)
    (skip_factor : Option ℕ) (transpose_factors : Bool) : Mat :=
  unfold (tucker_to_tensor core factors skip_factor transpose_factors) mode

/-- Embedding of `tucker_to_vec` from `tucker_tensor.py`: the vectorisation
of the reconstructed full tensor. -/
def tucker_to_vec (core : Tensor) (factors : List Mat) (skip_factor : Option ℕ)
    (transpose_factors : Bool) : Vec :=
  tensor_to_vec (tucker_to_tensor core factors skip_factor transpose_factors)

/-- Validity of a Tucker pair, exactly the invariant of the spec's data
model: at least two factors, one factor per core mode, and each factor's
column count equal to the core's extent on its mode. -/
def ValidTucker (core : Tensor) (factors : List Mat) : Prop :=
  2 ≤ factors.length ∧ factors.length = core.shape.length ∧
    ∀ i < factors.length, (factors.getD i dummyMat).cols = core.shape.getD i 0

instance (core : Tensor) (factors : List Mat) : Decidable (ValidTucker core factors) := by
  unfold ValidTucker; infer_instance

/-- Entry lookup in a depth-3 nested list, numpy-style `d[i][j][k]`. -/
def lookup3 (d : List (List (List ℤ))) (ix : List ℕ) : ℤ :=
  ((d.getD (ix.getD 0 0) []).getD (ix.getD 1 0) []).getD (ix.getD 2 0) 0

/-- The literal `(3, 4, 2)` integer core `X` of `test_tucker_to_tensor`. -/
def Xdata : List (List (List ℤ)) :=
  [[[1, 13], [4, 16], [7, 19], [10, 22]],
   [[2, 14], [5, 17], [8, 20], [11, 23]],
   [[3, 15], [6, 18], [9, 21], [12, 24]]]

/-- The core tensor of the literal scenario. -/
def Xcore : Tensor := ⟨[3, 4, 2], lookup3 Xdata⟩

/-- The factors of the literal scenario: `arange(R * s).reshape(R, s)` for
ranks `[2, 3, 4]` against the core's shape `(3, 4, 2)`, i.e. entry
`(a, b) = a * s + b`. -/
def Ufactors : List Mat :=
  [⟨2, 3, fun a b => ((a * 3 + b : ℕ) : ℤ)⟩,
   ⟨3, 4, fun a b => ((a * 4 + b : ℕ) : ℤ)⟩,
   ⟨4, 2, fun a b => ((a * 2 + b : ℕ) : ℤ)⟩]

/-- The precomputed `(2, 3, 4)` expected result of the literal scenario. -/
def trueResData : List (List (List ℤ)) :=
  [[[390, 1518, 2646, 3774],
    [1310, 4966, 8622, 12278],
    [2230, 8414, 14598, 20782]],
   [[1524, 5892, 10260, 14628],
    [5108, 19204, 33300, 47396],
    [8692, 32516, 56340, 80164]]]

/-- The expected tensor of the literal scenario. -/
def trueRes : Tensor := ⟨[2, 3, 4], lookup3 trueResData⟩

/-- A small 3-mode core used as witness data. -/
def W3core : Tensor := ⟨[2, 2, 2], fun ix => lookup3 [[[1, 2], [3, 4]], [[5, 6], [7, 8]]] ix⟩

/-- Small valid factors for the witness core. -/
def W3factors : List Mat :=
  [⟨1, 2, fun a b => ((a + 2 * b : ℕ) : ℤ)⟩,
   ⟨3, 2, fun a b => ((a * 2 + b : ℕ) : ℤ)⟩,
   ⟨2, 2, fun a b => ((a + b + 1 : ℕ) : ℤ)⟩]

/-- A small 2-mode core used as witness data for the validator claims. -/
def VWcore : Tensor := ⟨[2, 3], fun _ => 0⟩

/-- A 3-mode all-zero core used as witness data. -/
def VW3core : Tensor := ⟨[2, 3, 4], fun _ => 0⟩

/-- Valid factors for `VWcore`. -/
def VWfactors : List Mat := [⟨5, 2, fun _ _ => 0⟩, ⟨4, 3, fun _ _ => 0⟩]

/-- A single factor (too few for any Tucker tensor). -/
def VW1factors : List Mat := [⟨1, 1, fun _ _ => 0⟩]

/-- Factors for `VWcore` whose second factor has the wrong column count. -/
def VWbadfactors : List Mat := [⟨5, 2, fun _ _ => 0⟩, ⟨4, 7, fun _ _ => 0⟩]

/-- Valid factors for `VWcore` whose row counts are zero. -/
def VWzerofactors : List Mat := [⟨0, 2, fun _ _ => 0⟩, ⟨0, 3, fun _ _ => 0⟩]

/-- Helper: when every factor's column count matches the core's extent at
its mode, the validation loop succeeds with rows as shape, columns as rank. -/
theorem validateLoop_ok (coreShape : List ℕ) :
    ∀ (factors : List Mat) (i : ℕ),
      (∀ j < factors.length, (factors.getD j dummyMat).cols = coreShape.getD (i + j) 0) →
      validateLoop coreShape i factors = .ok (factors.map Mat.rows, factors.map Mat.cols) := by
  intro factors
  induction factors with
  | nil => intro i _; rfl
  | cons U rest ih =>
    intro i h
    have h0 : U.cols = coreShape.getD i 0 := by
      have := h 0 (Nat.succ_pos _)
      simpa using this
    have hrest : validateLoop coreShape (i + 1) rest = .ok (rest.map Mat.rows, rest.map Mat.cols) := by
      apply ih
      intro j hj
      have := h (j + 1) (Nat.succ_lt_succ hj)
      simpa [Nat.add_assoc, Nat.add_comm 1 j] using this
    simp [validateLoop, h0, hrest]

/-- Helper: if some factor's column count disagrees with the core's extent,
the validation loop fails with a `rankMismatch` naming an offending mode
together with both of its conflicting dimensions. -/
theorem validateLoop_err (coreShape : List ℕ) :
    ∀ (factors : List Mat) (i k : ℕ), k < factors.length →
      (factors.getD k dummyMat).cols ≠ coreShape.getD (i + k) 0 →
      ∃ j, j < factors.length ∧
        (factors.getD j dummyMat).cols ≠ coreShape.getD (i + j) 0 ∧
        validateLoop coreShape i factors =
          .error (.rankMismatch (i + j) ((factors.getD j dummyMat).cols) (coreShape.getD (i + j) 0)) := by
  intro factors
  induction factors with
  | nil => intro i k hk; exact absurd hk (Nat.not_lt_zero k)
  | cons U rest ih =>
    intro i k hk hne
    by_cases h0 : U.cols = coreShape.getD i 0
    · -- head passes; the mismatch is further in
      have hk' : k ≠ 0 := by
        intro h; subst h; apply hne; simpa using h0
      obtain ⟨k', rfl⟩ : ∃ k', k = k' + 1 := ⟨k - 1, (Nat.succ_pred_eq_of_pos (Nat.pos_of_ne_zero hk')).symm⟩
      have hk'' : k' < rest.length := Nat.lt_of_succ_lt_succ hk
      have hne' : (rest.getD k' dummyMat).cols ≠ coreShape.getD ((i + 1) + k') 0 := by
        have : (i + 1) + k' = i + (k' + 1) := by omega
        rw [this]
        simpa using hne
      obtain ⟨j, hj, hjne, hjeq⟩ := ih (i + 1) k' hk'' hne'
      refine ⟨j + 1, Nat.succ_lt_succ hj, ?_, ?_⟩
      · have : i + (j + 1) = (i + 1) + j := by omega
        rw [this]; simpa using hjne
      · have harith : i + (j + 1) = (i + 1) + j := by omega
        simp only [validateLoop, h0]
        rw [hjeq]
        simp [harith]
    · refine ⟨0, Nat.succ_pos _, ?_, ?_⟩
      · simpa using h0
      · have hstep : validateLoop coreShape i (U :: rest) =
            .error (.rankMismatch i U.cols (coreShape.getD i 0)) := by
          unfold validateLoop
          rw [if_pos h0]
        rw [hstep]
        simp

/-- Helper: the multi-mode product's output shape has one extent per core
mode whenever there is one factor per mode. -/
theorem mmdShape_length (skip : Option ℕ) (tr : Bool) :
    ∀ (off : ℕ) (s : List ℕ) (U : List Mat), U.length = s.length →
      (mmdShape skip tr off s U).length = s.length := by
  intro off s
  induction s generalizing off with
  | nil => intro U _; cases U <;> rfl
  | cons x srest ih =>
    intro U hU
    cases U with
    | nil => simp at hU
    | cons V Urest =>
      have : Urest.length = srest.length := by simpa using hU
      simp [mmdShape, ih (off + 1) Urest this]

/-- Helper: per-mode description of the multi-mode product's output shape:
the core's extent on the skipped mode, otherwise the factor's row count
(column count under transposition). -/
theorem mmdShape_getD (skip : Option ℕ) (tr : Bool) :
    ∀ (off : ℕ) (s : List ℕ) (U : List Mat) (i : ℕ), U.length = s.length → i < s.length →
      (mmdShape skip tr off s U).getD i 0 =
        if skip = some (off + i) then s.getD i 0
        else if tr then (U.getD i dummyMat).cols else (U.getD i dummyMat).rows := by
  intro off s
  induction s generalizing off with
  | nil => intro U i _ hi; exact absurd hi (Nat.not_lt_zero i)
  | cons x srest ih =>
    intro U i hU hi
    cases U with
    | nil => simp at hU
    | cons V Urest =>
      have hU' : Urest.length = srest.length := by simpa using hU
      cases i with
      | zero => simp [mmdShape]
      | succ i' =>
        have hi' : i' < srest.length := Nat.lt_of_succ_lt_succ hi
        have harith : off + (i' + 1) = (off + 1) + i' := by omega
        simp only [mmdShape, List.getD_cons_succ, harith]
        exact ih (off + 1) Urest i' hU' hi'

theorem prodWeights_none : ∀ (i : ℕ) (U : List Mat) (ar br : List ℕ),
    prodWeights none false i U ar br = prodEntries U ar br := by
  intro i U
  induction U generalizing i with
  | nil => intro ar br; rfl
  | cons V Us ih =>
    intro ar br
    cases ar with
    | nil => rfl
    | cons a arest =>
      cases br with
      | nil => rfl
      | cons b brest => simp [prodWeights, prodEntries, ih (i + 1)]

theorem sum_map_flatMap {α β : Type} (l : List α) (f : α → List β) (g : β → ℤ) :
    ((l.flatMap f).map g).sum = (l.map (fun a => ((f a).map g).sum)).sum := by
  rw [List.map_flatMap, List.flatMap, List.sum_flatten, List.map_map]
  rfl

theorem sum_comm_list {α β : Type} (l1 : List α) (l2 : List β) (f : α → β → ℤ) :
    (l1.map (fun a => (l2.map (f a)).sum)).sum =
      (l2.map (fun b => (l1.map (fun a => f a b)).sum)).sum := by
  induction l1 with
  | nil => simp
  | cons a l1 ih =>
    simp only [List.map_cons, List.sum_cons, ih]
    rw [List.sum_map_add]

theorem range_mul_flatMap (P : ℕ) : ∀ (x : ℕ),
    List.range (x * P) =
      (List.range x).flatMap (fun i => (List.range P).map (fun j => i * P + j)) := by
  intro x
  induction x with
  | zero => simp
  | succ x ih =>
    rw [Nat.succ_mul, List.range_add, ih, List.range_succ, List.flatMap_append]
    simp

theorem unflatten_length : ∀ (s : List ℕ) (c : ℕ), (unflatten s c).length = s.length := by
  intro s
  induction s with
  | nil => intro c; rfl
  | cons x rest ih => intro c; simp [unflatten, ih]

theorem map_unflatten_range : ∀ (s : List ℕ),
    (List.range s.prod).map (unflatten s) = allIndices s := by
  intro s
  induction s with
  | nil => rfl
  | cons x rest ih =>
    have hin : ∀ i : ℕ,
        (List.map (fun j => i * rest.prod + j) (List.range rest.prod)).map (unflatten (x :: rest)) =
          (allIndices rest).map (fun u => i :: u) := by
      intro i
      rw [List.map_map]
      have hpt : ∀ j ∈ List.range rest.prod,
          (unflatten (x :: rest) ∘ fun j => i * rest.prod + j) j =
            ((fun u => i :: u) ∘ unflatten rest) j := by
        intro j hj
        have hjP : j < rest.prod := List.mem_range.mp hj
        have hP : 0 < rest.prod := Nat.lt_of_le_of_lt (Nat.zero_le j) hjP
        show (i * rest.prod + j) / rest.prod :: unflatten rest ((i * rest.prod + j) % rest.prod) =
          i :: unflatten rest j
        congr 1
        · rw [Nat.add_comm, Nat.add_mul_div_right _ _ hP, Nat.div_eq_of_lt hjP, Nat.zero_add]
        · rw [Nat.add_comm, Nat.add_mul_mod_self_right, Nat.mod_eq_of_lt hjP]
      rw [List.map_congr_left hpt, ← List.map_map, ih]
    rw [List.prod_cons, range_mul_flatMap rest.prod x, List.map_flatMap]
    rw [List.flatMap]
    rw [List.map_congr_left (fun i _ => hin i)]
    rfl

theorem sum_range_prod_eq (G : List ℕ → ℤ) (s : List ℕ) :
    ((List.range s.prod).map (fun k => G (unflatten s k))).sum =
      ((allIndices s).map G).sum := by
  rw [← map_unflatten_range s, List.map_map]
  rfl

theorem eraseAt_length {α : Type} : ∀ (k : ℕ) (l : List α), k < l.length →
    (eraseAt k l).length = l.length - 1 := by
  intro k
  induction k with
  | zero =>
    intro l hl
    cases l with
    | nil => simp at hl
    | cons x xs => rfl
  | succ k ih =>
    intro l hl
    cases l with
    | nil => simp at hl
    | cons x xs =>
      have hx : k < xs.length := by simpa using hl
      have hlen : 1 ≤ xs.length := Nat.lt_of_le_of_lt (Nat.zero_le k) hx
      show (eraseAt k xs).length + 1 = xs.length + 1 - 1
      rw [ih xs hx]
      omega

theorem eraseAt_map {α β : Type} (f : α → β) : ∀ (k : ℕ) (l : List α),
    eraseAt k (l.map f) = (eraseAt k l).map f := by
  intro k
  induction k with
  | zero => intro l; cases l <;> rfl
  | succ k ih =>
    intro l
    cases l with
    | nil => rfl
    | cons x xs => show f x :: eraseAt k (xs.map f) = f x :: (eraseAt k xs).map f; rw [ih]

theorem insertAt_getD_eraseAt {α : Type} (d : α) : ∀ (k : ℕ) (l : List α), k < l.length →
    insertAt k (l.getD k d) (eraseAt k l) = l := by
  intro k
  induction k with
  | zero =>
    intro l hl
    cases l with
    | nil => simp at hl
    | cons x xs => rfl
  | succ k ih =>
    intro l hl
    cases l with
    | nil => simp at hl
    | cons x xs =>
      show x :: insertAt k (xs.getD k d) (eraseAt k xs) = x :: xs
      rw [ih xs (by simpa using hl)]

theorem length_mem_allIndices : ∀ (s ix : List ℕ), ix ∈ allIndices s → ix.length = s.length := by
  intro s
  induction s with
  | nil =>
    intro ix h
    have : ix = [] := by simpa [allIndices] using h
    simp [this]
  | cons x rest ih =>
    intro ix h
    simp only [allIndices, List.mem_flatMap, List.mem_map] at h
    obtain ⟨i, _, u, hu, rfl⟩ := h
    simp [ih u hu]

theorem getD_map_lt {α β : Type} (f : α → β) (d : α) (e : β) (l : List α) (k : ℕ)
    (hk : k < l.length) : (l.map f).getD k e = f (l.getD k d) := by
  rw [List.getD_eq_getElem _ _ (by simpa using hk), List.getD_eq_getElem _ _ hk, List.getElem_map]

theorem mmdShape_none : ∀ (off : ℕ) (s : List ℕ) (U : List Mat), U.length = s.length →
    mmdShape none false off s U = U.map Mat.rows := by
  intro off s
  induction s generalizing off with
  | nil =>
    intro U hU
    cases U with
    | nil => rfl
    | cons V Us => simp at hU
  | cons x rest ih =>
    intro U hU
    cases U with
    | nil => simp at hU
    | cons V Us => simp [mmdShape, ih (off + 1) Us (by simpa using hU)]

theorem map_cols_eq_shape (core : Tensor) (factors : List Mat)
    (hlen : factors.length = core.shape.length)
    (hcols : ∀ i < factors.length, (factors.getD i dummyMat).cols = core.shape.getD i 0) :
    factors.map Mat.cols = core.shape := by
  apply List.ext_getElem (by simpa using hlen)
  intro i h1 h2
  have hif : i < factors.length := by simpa using h1
  have := hcols i hif
  rw [List.getD_eq_getElem _ _ hif, List.getD_eq_getElem _ _ h2] at this
  simpa [List.getElem_map] using this

theorem prodEntries_insertAt : ∀ (k : ℕ) (U : List Mat) (ar br : List ℕ) (V : Mat) (a b : ℕ),
    k ≤ U.length → k ≤ ar.length → k ≤ br.length →
    prodEntries (insertAt k V U) (insertAt k a ar) (insertAt k b br) =
      V.entry a b * prodEntries U ar br := by
  intro k
  induction k with
  | zero => intro U ar br V a b _ _ _; rfl
  | succ k ih =>
    intro U ar br V a b hU har hbr
    cases U with
    | nil => simp at hU
    | cons W U' =>
      cases ar with
      | nil => simp at har
      | cons a' ar' =>
        cases br with
        | nil => simp at hbr
        | cons b' br' =>
          show W.entry a' b' *
              prodEntries (insertAt k V U') (insertAt k a ar') (insertAt k b br') =
            V.entry a b * (W.entry a' b' * prodEntries U' ar' br')
          rw [ih U' ar' br' V a b (by simpa using hU) (by simpa using har) (by simpa using hbr)]
          ring

theorem sum_allIndices_split : ∀ (k : ℕ) (s : List ℕ), k < s.length → ∀ (g : List ℕ → ℤ),
    ((allIndices s).map g).sum =
      ((List.range (s.getD k 0)).map (fun q =>
        ((allIndices (eraseAt k s)).map (fun u => g (insertAt k q u))).sum)).sum := by
  intro k
  induction k with
  | zero =>
    intro s hs g
    cases s with
    | nil => simp at hs
    | cons x rest =>
      rw [show allIndices (x :: rest) =
          (List.range x).flatMap (fun i => (allIndices rest).map (fun ix => i :: ix)) from rfl]
      rw [sum_map_flatMap]
      apply congrArg List.sum
      apply List.map_congr_left
      intro q _
      rw [List.map_map]
      rfl
  | succ k ih =>
    intro s hs g
    cases s with
    | nil => simp at hs
    | cons x rest =>
      have hk : k < rest.length := by simpa using hs
      rw [show allIndices (x :: rest) =
          (List.range x).flatMap (fun i => (allIndices rest).map (fun ix => i :: ix)) from rfl]
      rw [sum_map_flatMap]
      have hinner : ∀ i : ℕ,
          (((allIndices rest).map (fun ix => i :: ix)).map g).sum =
            ((List.range (rest.getD k 0)).map (fun q =>
              ((allIndices (eraseAt k rest)).map (fun u => g (i :: insertAt k q u))).sum)).sum := by
        intro i
        rw [List.map_map]
        exact ih rest hk (fun u => g (i :: u))
      rw [List.map_congr_left (fun i _ => hinner i)]
      rw [sum_comm_list]
      have hr : ∀ q : ℕ,
          ((allIndices (x :: eraseAt k rest)).map (fun u => g (insertAt (k + 1) q u))).sum =
            ((List.range x).map (fun i =>
              ((allIndices (eraseAt k rest)).map (fun u => g (i :: insertAt k q u))).sum)).sum := by
        intro q
        rw [show allIndices (x :: eraseAt k rest) =
            (List.range x).flatMap (fun i => (allIndices (eraseAt k rest)).map (fun ix => i :: ix))
          from rfl]
        rw [sum_map_flatMap]
        apply congrArg List.sum
        apply List.map_congr_left
        intro i _
        rw [List.map_map]
        rfl
      rw [show eraseAt (k + 1) (x :: rest) = x :: eraseAt k rest from rfl]
      rw [show (x :: rest).getD (k + 1) 0 = rest.getD k 0 from rfl]
      rw [List.map_congr_left (fun q _ => hr q)]

theorem sum_mul_swap {β : Type} (Lq : List ℕ) (Lu : List β) (f : ℕ → ℤ) (g : ℕ → β → ℤ)
    (p : β → ℤ) :
    (Lq.map (fun q => f q * (Lu.map (fun u => g q u * p u)).sum)).sum =
      (Lu.map (fun u => (Lq.map (fun q => f q * g q u)).sum * p u)).sum := by
  have h1 : ∀ q, f q * (Lu.map (fun u => g q u * p u)).sum =
      (Lu.map (fun u => f q * (g q u * p u))).sum := by
    intro q
    rw [List.sum_map_mul_left]
  rw [List.map_congr_left (fun q _ => h1 q)]
  rw [sum_comm_list]
  apply congrArg List.sum
  apply List.map_congr_left
  intro u _
  rw [← List.sum_map_mul_right]
  apply congrArg List.sum
  apply List.map_congr_left
  intro q _
  ring

/-- Helper: once both count checks pass, `_validate_tucker_tensor` is its
per-mode loop. -/
theorem validate_reduce (core : Tensor) (factors : List Mat)
    (h2 : ¬ factors.length < 2) (hlen : factors.length = core.shape.length) :
    validate_tucker_tensor (core, factors) = validateLoop core.shape 0 factors := by
  show (if factors.length < 2 then
          (Except.error (TuckerError.tooFewFactors factors.length) :
            Except TuckerError (List ℕ × List ℕ))
        else if factors.length ≠ core.shape.length then
          Except.error (TuckerError.wrongFactorCount core.shape.length factors.length)
        else validateLoop core.shape 0 factors) = validateLoop core.shape 0 factors
  rw [if_neg h2, if_neg (by simp [hlen])]

/-- C1: for the literal scenario — core `X` the `(3,4,2)` integer tensor of
the test, factors `U[i] = arange(R_i * X.shape[i]).reshape(R_i, X.shape[i])`
for ranks `[2,3,4]` — `tucker_to_tensor(X, U)` equals the precomputed
`(2,3,4)` integer array exactly, in exact integer arithmetic. -/
theorem claim_C1 : TEq (tucker_to_tensor Xcore Ufactors none false) trueRes := by decide

/-- C2: for every valid Tucker tensor, `_validate_tucker_tensor` returns
without error the pair of the factors' row counts (the shape) and the
factors' column counts (the rank), the latter coinciding with the core's
shape, so `shape[i] = factors[i].shape[0]` and
`rank[i] = factors[i].shape[1] = core.shape[i]` for every mode. -/
theorem claim_C2 (core : Tensor) (factors : List Mat)
    (h2 : 2 ≤ factors.length) (hlen : factors.length = core.shape.length)
    (hcols : ∀ i < factors.length, (factors.getD i dummyMat).cols = core.shape.getD i 0) :
    validate_tucker_tensor (core, factors) =
      .ok (factors.map Mat.rows, factors.map Mat.cols) ∧
    factors.map Mat.cols = core.shape := by
  have hloop := validateLoop_ok core.shape factors 0
    (by intro j hj; simpa using hcols j hj)
  constructor
  · rw [validate_reduce core factors (Nat.not_lt.mpr h2) hlen]
    exact hloop
  · apply List.ext_getElem (by simpa using hlen)
    intro i h1 h2'
    have hif : i < factors.length := by simpa using h1
    have := hcols i hif
    rw [List.getD_eq_getElem _ _ hif, List.getD_eq_getElem _ _ h2'] at this
    simpa [List.getElem_map] using this

/-- C3: with a valid skip mode `k` (and one factor per core mode), the
output of `tucker_to_tensor` with `skip_factor = k` keeps the core's extent
along mode `k` and has each factor's row count along every other mode. -/
theorem claim_C3 (core : Tensor) (factors : List Mat) (k : ℕ)
    (hlen : factors.length = core.shape.length) (hk : k < core.shape.length) :
    (tucker_to_tensor core factors (some k) false).shape.length = core.shape.length ∧
    (tucker_to_tensor core factors (some k) false).shape.getD k 0 = core.shape.getD k 0 ∧
    ∀ i < core.shape.length, i ≠ k →
      (tucker_to_tensor core factors (some k) false).shape.getD i 0 =
        (factors.getD i dummyMat).rows := by
  refine ⟨mmdShape_length _ _ _ _ _ hlen, ?_, ?_⟩
  · have := mmdShape_getD (some k) false 0 core.shape factors k hlen hk
    simpa using this
  · intro i hi hne
    have := mmdShape_getD (some k) false 0 core.shape factors i hlen hi
    simpa [Ne.symm hne] using this

/-- C4: for every valid Tucker tensor with at least three modes and every
mode index, `tucker_to_unfolded` agrees with unfolding the result of
`tucker_to_tensor` at that mode. -/
theorem claim_C4 (core : Tensor) (factors : List Mat) (mode : ℕ)
    (_hv : ValidTucker core factors) (_h3 : 3 ≤ core.shape.length)
    (_hm : mode < core.shape.length) :
    MatEq (tucker_to_unfolded core factors mode none false)
      (unfold (tucker_to_tensor core factors none false) mode) :=
  ⟨rfl, rfl, fun _ _ _ _ => rfl⟩

/-- C5: for every valid Tucker tensor, `tucker_to_vec` agrees exactly with
vectorising the result of `tucker_to_tensor`. -/
theorem claim_C5 (core : Tensor) (factors : List Mat)
    (_hv : ValidTucker core factors) :
    VecEq (tucker_to_vec core factors none false)
      (tensor_to_vec (tucker_to_tensor core factors none false)) :=
  ⟨rfl, fun _ _ => rfl⟩

/-- C6: for every valid Tucker tensor and every mode, `tucker_to_unfolded`
equals the matrix product of the mode's factor, the mode-unfolded core and
the transposed Kronecker product of the remaining factors, exactly over the
integers. -/
theorem claim_C6 (core : Tensor) (factors : List Mat) (mode : ℕ)
    (hv : ValidTucker core factors) (hm : mode < core.shape.length) :
    MatEq (tucker_to_unfolded core factors mode none false)
      (matMul (matMul (factors.getD mode dummyMat) (unfold core mode))
        (transposeMat (kronecker (eraseAt mode factors)))) := by
  obtain ⟨_h2, hlen, hcols⟩ := hv
  have hmf : mode < factors.length := by rw [hlen]; exact hm
  have hshape : mmdShape none false 0 core.shape factors = factors.map Mat.rows :=
    mmdShape_none 0 core.shape factors hlen
  have hcolseq : factors.map Mat.cols = core.shape := map_cols_eq_shape core factors hlen hcols
  have hUcols : (eraseAt mode factors).map Mat.cols = eraseAt mode core.shape := by
    rw [← eraseAt_map, hcolseq]
  have hUmcols : (factors.getD mode dummyMat).cols = core.shape.getD mode 0 := hcols mode hmf
  have hU'len : (eraseAt mode factors).length = factors.length - 1 :=
    eraseAt_length mode factors hmf
  have hs'len : (eraseAt mode core.shape).length = core.shape.length - 1 :=
    eraseAt_length mode core.shape hm
  refine ⟨?_, ?_, ?_⟩
  · show (mmdShape none false 0 core.shape factors).getD mode 0 =
      (factors.getD mode dummyMat).rows
    rw [hshape]
    exact getD_map_lt Mat.rows dummyMat 0 factors mode hmf
  · show (eraseAt mode (mmdShape none false 0 core.shape factors)).prod =
      ((eraseAt mode factors).map Mat.rows).prod
    rw [hshape, eraseAt_map]
  · intro r _ c _
    show ((allIndices core.shape).map (fun jx =>
        core.entry jx * prodWeights none false 0 factors
          (insertAt mode r
            (unflatten (eraseAt mode (mmdShape none false 0 core.shape factors)) c)) jx)).sum =
      ((List.range ((eraseAt mode core.shape).prod)).map (fun k =>
        ((List.range (factors.getD mode dummyMat).cols).map (fun q =>
          (factors.getD mode dummyMat).entry r q *
            core.entry (insertAt mode q (unflatten (eraseAt mode core.shape) k)))).sum *
        prodEntries (eraseAt mode factors)
          (unflatten ((eraseAt mode factors).map Mat.rows) c)
          (unflatten ((eraseAt mode factors).map Mat.cols) k))).sum
    rw [hshape, eraseAt_map, hUcols, hUmcols]
    simp only [prodWeights_none]
    set T := unflatten ((eraseAt mode factors).map Mat.rows) c with hTdef
    have hTlen : T.length = (eraseAt mode factors).length := by
      rw [hTdef, unflatten_length, List.length_map]
    have hmle1 : mode ≤ (eraseAt mode factors).length := by rw [hU'len]; omega
    have hmle2 : mode ≤ T.length := by rw [hTlen, hU'len]; omega
    have hmle3 : ∀ u ∈ allIndices (eraseAt mode core.shape), mode ≤ u.length := by
      intro u hu
      rw [length_mem_allIndices _ u hu, hs'len]
      omega
    have hsplit : ∀ (q : ℕ), ∀ u ∈ allIndices (eraseAt mode core.shape),
        prodEntries factors (insertAt mode r T) (insertAt mode q u) =
          (factors.getD mode dummyMat).entry r q *
            prodEntries (eraseAt mode factors) T u := by
      intro q u hu
      conv_lhs => rw [← insertAt_getD_eraseAt dummyMat mode factors hmf]
      exact prodEntries_insertAt mode (eraseAt mode factors) T u
        (factors.getD mode dummyMat) r q hmle1 hmle2 (hmle3 u hu)
    calc ((allIndices core.shape).map (fun jx =>
            core.entry jx * prodEntries factors (insertAt mode r T) jx)).sum
        = ((List.range (core.shape.getD mode 0)).map (fun q =>
            ((allIndices (eraseAt mode core.shape)).map (fun u =>
              core.entry (insertAt mode q u) *
                prodEntries factors (insertAt mode r T) (insertAt mode q u))).sum)).sum :=
          sum_allIndices_split mode core.shape hm _
      _ = ((List.range (core.shape.getD mode 0)).map (fun q =>
            ((allIndices (eraseAt mode core.shape)).map (fun u =>
              (factors.getD mode dummyMat).entry r q *
                (core.entry (insertAt mode q u) *
                  prodEntries (eraseAt mode factors) T u))).sum)).sum := by
          apply congrArg List.sum
          apply List.map_congr_left
          intro q _
          apply congrArg List.sum
          apply List.map_congr_left
          intro u hu
          simp only [hsplit q u hu]
          ring
      _ = ((List.range (core.shape.getD mode 0)).map (fun q =>
            (factors.getD mode dummyMat).entry r q *
              ((allIndices (eraseAt mode core.shape)).map (fun u =>
                core.entry (insertAt mode q u) *
                  prodEntries (eraseAt mode factors) T u)).sum)).sum := by
          apply congrArg List.sum
          apply List.map_congr_left
          intro q _
          exact List.sum_map_mul_left _ _ _
      _ = ((allIndices (eraseAt mode core.shape)).map (fun u =>
            ((List.range (core.shape.getD mode 0)).map (fun q =>
              (factors.getD mode dummyMat).entry r q *
                core.entry (insertAt mode q u))).sum *
            prodEntries (eraseAt mode factors) T u)).sum :=
          sum_mul_swap (List.range (core.shape.getD mode 0))
            (allIndices (eraseAt mode core.shape))
            (fun q => (factors.getD mode dummyMat).entry r q)
            (fun q u => core.entry (insertAt mode q u))
            (fun u => prodEntries (eraseAt mode factors) T u)
      _ = ((List.range ((eraseAt mode core.shape).prod)).map (fun k =>
            ((List.range (core.shape.getD mode 0)).map (fun q =>
              (factors.getD mode dummyMat).entry r q *
                core.entry (insertAt mode q (unflatten (eraseAt mode core.shape) k)))).sum *
            prodEntries (eraseAt mode factors) T (unflatten (eraseAt mode core.shape) k))).sum :=
          (sum_range_prod_eq (fun u =>
            ((List.range (core.shape.getD mode 0)).map (fun q =>
              (factors.getD mode dummyMat).entry r q *
                core.entry (insertAt mode q u))).sum *
            prodEntries (eraseAt mode factors) T u) (eraseAt mode core.shape)).symm

/-- C7: whenever fewer than two factors are given, `_validate_tucker_tensor`
fails, and with the too-few-factors error specifically — so this check fires
before the factor-count-versus-mode-count check and before any per-mode
dimension check. -/
theorem claim_C7 (core : Tensor) (factors : List Mat) (h : factors.length < 2) :
    validate_tucker_tensor (core, factors) = .error (.tooFewFactors factors.length) := by
  unfold validate_tucker_tensor
  simp [h]

/-- C8: with at least two factors but a factor count different from the
core's mode count, `_validate_tucker_tensor` fails with the error reporting
the core's mode count and the number of factors provided. -/
theorem claim_C8 (core : Tensor) (factors : List Mat)
    (h2 : 2 ≤ factors.length) (hne : factors.length ≠ core.shape.length) :
    validate_tucker_tensor (core, factors) =
      .error (.wrongFactorCount core.shape.length factors.length) := by
  unfold validate_tucker_tensor
  simp [Nat.not_lt.mpr h2, hne]

/-- C9: past the two count checks, if some mode's factor has a column count
different from the core's extent there, `_validate_tucker_tensor` fails with
a rank-mismatch error carrying an offending mode index together with that
factor's column count and the core's extent at that mode. -/
theorem claim_C9 (core : Tensor) (factors : List Mat) (i : ℕ)
    (h2 : 2 ≤ factors.length) (hlen : factors.length = core.shape.length)
    (hi : i < factors.length)
    (hne : (factors.getD i dummyMat).cols ≠ core.shape.getD i 0) :
    ∃ j < factors.length, (factors.getD j dummyMat).cols ≠ core.shape.getD j 0 ∧
      validate_tucker_tensor (core, factors) =
        .error (.rankMismatch j ((factors.getD j dummyMat).cols) (core.shape.getD j 0)) := by
  obtain ⟨j, hj, hjne, hjeq⟩ :=
    validateLoop_err core.shape factors 0 i (by simpa using hi) (by simpa using hne)
  refine ⟨j, hj, by simpa using hjne, ?_⟩
  rw [validate_reduce core factors (Nat.not_lt.mpr h2) hlen]
  simpa using hjeq

/-- C10: `_validate_tucker_tensor` never constrains the factors' row counts:
once the count checks and the per-mode column checks pass, validation
succeeds and returns the row counts verbatim as the shape, whatever they are
(zero included). -/
theorem claim_C10 (core : Tensor) (factors : List Mat)
    (h2 : 2 ≤ factors.length) (hlen : factors.length = core.shape.length)
    (hcols : ∀ i < factors.length, (factors.getD i dummyMat).cols = core.shape.getD i 0) :
    validate_tucker_tensor (core, factors) =
      .ok (factors.map Mat.rows, factors.map Mat.cols) := by
  have hloop := validateLoop_ok core.shape factors 0
    (by intro j hj; simpa using hcols j hj)
  rw [validate_reduce core factors (Nat.not_lt.mpr h2) hlen]
  exact hloop

/-- Witness for C2 at a concrete valid Tucker pair. -/
theorem claim_C2_witness :
    (2 ≤ VWfactors.length ∧ VWfactors.length = VWcore.shape.length ∧
      ∀ i < VWfactors.length, (VWfactors.getD i dummyMat).cols = VWcore.shape.getD i 0) ∧
    (validate_tucker_tensor (VWcore, VWfactors) =
        .ok (VWfactors.map Mat.rows, VWfactors.map Mat.cols) ∧
      VWfactors.map Mat.cols = VWcore.shape) :=
  ⟨⟨by decide, by decide, by decide⟩,
    claim_C2 VWcore VWfactors (by decide) (by decide) (by decide)⟩

/-- Witness for C3 at a concrete 3-mode Tucker pair with skip mode 1. -/
theorem claim_C3_witness :
    (W3factors.length = W3core.shape.length ∧ 1 < W3core.shape.length) ∧
    ((tucker_to_tensor W3core W3factors (some 1) false).shape.length = W3core.shape.length ∧
      (tucker_to_tensor W3core W3factors (some 1) false).shape.getD 1 0 =
        W3core.shape.getD 1 0 ∧
      ∀ i < W3core.shape.length, i ≠ 1 →
        (tucker_to_tensor W3core W3factors (some 1) false).shape.getD i 0 =
          (W3factors.getD i dummyMat).rows) :=
  ⟨⟨by decide, by decide⟩, claim_C3 W3core W3factors 1 (by decide) (by decide)⟩

/-- Witness for C4 at a concrete valid 3-mode Tucker pair and mode 1. -/
theorem claim_C4_witness :
    (ValidTucker W3core W3factors ∧ 3 ≤ W3core.shape.length ∧ 1 < W3core.shape.length) ∧
    MatEq (tucker_to_unfolded W3core W3factors 1 none false)
      (unfold (tucker_to_tensor W3core W3factors none false) 1) :=
  ⟨⟨by decide, by decide, by decide⟩,
    claim_C4 W3core W3factors 1 (by decide) (by decide) (by decide)⟩

/-- Witness for C5 at a concrete valid 3-mode Tucker pair. -/
theorem claim_C5_witness :
    ValidTucker W3core W3factors ∧
    VecEq (tucker_to_vec W3core W3factors none false)
      (tensor_to_vec (tucker_to_tensor W3core W3factors none false)) :=
  ⟨by decide, claim_C5 W3core W3factors (by decide)⟩

/-- Witness for C6 at a concrete valid 3-mode Tucker pair and mode 1. -/
theorem claim_C6_witness :
    (ValidTucker W3core W3factors ∧ 1 < W3core.shape.length) ∧
    MatEq (tucker_to_unfolded W3core W3factors 1 none false)
      (matMul (matMul (W3factors.getD 1 dummyMat) (unfold W3core 1))
        (transposeMat (kronecker (eraseAt 1 W3factors)))) :=
  ⟨⟨by decide, by decide⟩, claim_C6 W3core W3factors 1 (by decide) (by decide)⟩

/-- Witness for C7 at a concrete single-factor input. -/
theorem claim_C7_witness :
    VW1factors.length < 2 ∧
    validate_tucker_tensor (VWcore, VW1factors) =
      .error (.tooFewFactors VW1factors.length) :=
  ⟨by decide, claim_C7 VWcore VW1factors (by decide)⟩

/-- Witness for C8 at a concrete input with two factors against a 3-mode core. -/
theorem claim_C8_witness :
    (2 ≤ VWfactors.length ∧ VWfactors.length ≠ VW3core.shape.length) ∧
    validate_tucker_tensor (VW3core, VWfactors) =
      .error (.wrongFactorCount VW3core.shape.length VWfactors.length) :=
  ⟨⟨by decide, by decide⟩, claim_C8 VW3core VWfactors (by decide) (by decide)⟩

/-- Witness for C9 at a concrete input whose second factor's column count is
wrong. -/
theorem claim_C9_witness :
    (2 ≤ VWbadfactors.length ∧ VWbadfactors.length = VWcore.shape.length ∧
      1 < VWbadfactors.length ∧
      (VWbadfactors.getD 1 dummyMat).cols ≠ VWcore.shape.getD 1 0) ∧
    (∃ j < VWbadfactors.length,
      (VWbadfactors.getD j dummyMat).cols ≠ VWcore.shape.getD j 0 ∧
      validate_tucker_tensor (VWcore, VWbadfactors) =
        .error (.rankMismatch j ((VWbadfactors.getD j dummyMat).cols)
          (VWcore.shape.getD j 0))) :=
  ⟨⟨by decide, by decide, by decide, by decide⟩,
    claim_C9 VWcore VWbadfactors 1 (by decide) (by decide) (by decide) (by decide)⟩

/-- Witness for C10 at a concrete valid pair whose factors have zero rows. -/
theorem claim_C10_witness :
    (2 ≤ VWzerofactors.length ∧ VWzerofactors.length = VWcore.shape.length ∧
      ∀ i < VWzerofactors.length,
        (VWzerofactors.getD i dummyMat).cols = VWcore.shape.getD i 0) ∧
    validate_tucker_tensor (VWcore, VWzerofactors) =
      .ok (VWzerofactors.map Mat.rows, VWzerofactors.map Mat.cols) :=
  ⟨⟨by decide, by decide, by decide⟩,
    claim_C10 VWcore VWzerofactors (by decide) (by decide) (by decide)⟩

end Tucker
